import Mathlib

/-!
Shallow embedding of the two graph-generator scripts in this repository:
`src/graph2.py` (random-cycle generator) and `src/graph_generation.py`
(two-community stochastic-block-model generator).

Randomness is modelled explicitly: `random.random()` draws become a stream
`u : Nat → ℚ` of values (the source consumes the stream in program order),
and the shuffled order produced by `random.shuffle` becomes either a list
`s` assumed to be a permutation of `List.range N` (when a claim quantifies
over all shuffle outcomes) or a Fisher–Yates procedure driven by a stream
of integer draws (for the determinism claim).
-/

/-- A JSON scalar as written by `json.dumps`: either a string or a
(non-negative) integer.  The distinction matters because `graph2.py`
serializes raw `int` indices into its edge list while its `vertices`
list holds strings. -/
inductive JVal where
  | jstr : String → JVal
  | jnat : Nat → JVal
deriving DecidableEq, Repr

namespace Graph2

/-- `vertices = [f"{i+1}" for i in range(NUMBER_OF_VERTICES)]` in
`src/graph2.py`. -/
def vertices (N : Nat) : List String :=
  (List.range N).map (fun i => toString (i + 1))

/-- The edge list built by `src/graph2.py` from the shuffled index list
`indices`:
`for i in range(N-1): edges.append([indices[i], indices[i+1]])` followed by
`edges.append([indices[-1], indices[0]])`.  (`indices[-1]` is the last
element, i.e. index `length - 1`.) -/
def edges (indices : List Nat) : List (Nat × Nat) :=
  ((List.range (indices.length - 1)).map
      (fun i => (indices.getD i 0, indices.getD (i + 1) 0)))
    ++ [(indices.getD (indices.length - 1) 0, indices.getD 0 0)]

/-- The edge list of `src/graph2.py` as it appears in the JSON output:
each endpoint is serialized as a raw integer (`json.dumps` writes the
`int` list entries as JSON numbers). -/
def edgesJson (indices : List Nat) : List (JVal × JVal) :=
  (edges indices).map (fun e => (JVal.jnat e.1, JVal.jnat e.2))

/-- The edge list the specification describes instead: endpoints taken
from the string `vertices` array ("edges store the vertex identifiers
(string form), not raw indices").  Stated only to be compared with the
source's `edgesJson`. -/
def edgesSpecStr (N : Nat) (indices : List Nat) : List (JVal × JVal) :=
  (edges indices).map
    (fun e => (JVal.jstr ((vertices N).getD e.1 ""),
               JVal.jstr ((vertices N).getD e.2 "")))

end Graph2

namespace GraphGeneration

/-- `vertices = [f"{i+1}" for i in range(NUMBER_OF_VERTICES)]` in
`src/graph_generation.py`. -/
def vertices (N : Nat) : List String :=
  (List.range N).map (fun i => toString (i + 1))

/-- `community1` in `src/graph_generation.py`: the vertex indices `v` in
`range(N)` (in ascending order) whose community draw `u v` satisfies
`random.random() < 0.5`.  Draw `v` of the stream is the one consumed at
loop iteration `v`. -/
def community1 (N : Nat) (u : Nat → ℚ) : List Nat :=
  (List.range N).filter (fun v => decide (u v < 1/2))

/-- `community2` in `src/graph_generation.py`: the complementary indices,
appended when the draw is `≥ 0.5`. -/
def community2 (N : Nat) (u : Nat → ℚ) : List Nat :=
  (List.range N).filter (fun v => !decide (u v < 1/2))

/-- The ordered list of intra-community candidate pairs
`(c[i], c[j])` for `0 ≤ i < j < len(c)`, in the iteration order of the
nested loops of `src/graph_generation.py`. -/
def intraPairs : List Nat → List (Nat × Nat)
  | [] => []
  | x :: xs => xs.map (fun y => (x, y)) ++ intraPairs xs

/-- The ordered list of inter-community candidate pairs
`(c1[i], c2[j])`, in the iteration order of the nested loops of
`src/graph_generation.py`. -/
def interPairs (c1 c2 : List Nat) : List (Nat × Nat) :=
  c1.flatMap (fun x => c2.map (fun y => (x, y)))

/-- One edge-sampling loop of `src/graph_generation.py`: walk the
candidate pairs in order, consuming one draw per pair starting at stream
position `k`, and keep a pair when its draw is `< p`. -/
def samplePairs (p : ℚ) (u : Nat → ℚ) : List (Nat × Nat) → Nat → List (Nat × Nat)
  | [], _ => []
  | e :: rest, k =>
    if u k < p then e :: samplePairs p u rest (k + 1)
    else samplePairs p u rest (k + 1)

/-- The full edge list of `src/graph_generation.py`, with the three
hard-coded probabilities `0.01, 0.01, 0.001` generalized to parameters
`p1, p2, p3` (the source's defaults instantiate them).  Draws `0..N-1`
assign communities; subsequent draws are consumed one per candidate
pair, in the order of the three loops. -/
def edges (N : Nat) (p1 p2 p3 : ℚ) (u : Nat → ℚ) : List (Nat × Nat) :=
  let c1 := community1 N u
  let c2 := community2 N u
  let e1 := samplePairs p1 u (intraPairs c1) N
  let e2 := samplePairs p2 u (intraPairs c2) (N + (intraPairs c1).length)
  let e3 := samplePairs p3 u (interPairs c1 c2)
      (N + (intraPairs c1).length + (intraPairs c2).length)
  e1 ++ e2 ++ e3

end GraphGeneration

/-- Number of times vertex `v` occurs as an endpoint in an edge list
(a self-loop counts twice): the degree of `v`. -/
def degCount (es : List (Nat × Nat)) (v : Nat) : Nat :=
  es.countP (fun e => decide (e.1 = v)) + es.countP (fun e => decide (e.2 = v))

/-- Whether edge `e` equals the unordered pair `{a, b}`. -/
def pairMatch (a b : Nat) (e : Nat × Nat) : Bool :=
  (decide (e.1 = a) && decide (e.2 = b)) || (decide (e.1 = b) && decide (e.2 = a))

/-- Number of occurrences of the unordered pair `{a, b}` in an edge list. -/
def unorderedCount (es : List (Nat × Nat)) (a b : Nat) : Nat :=
  es.countP (pairMatch a b)

/-- An edge list has no duplicate edges when no unordered endpoint pair
occurs twice. -/
def NoDupEdges (es : List (Nat × Nat)) : Prop :=
  ∀ a b, unorderedCount es a b ≤ 1

/-! ### General helper lemmas -/

theorem count_range_eq (v n : Nat) :
    (List.range n).count v = if v < n then 1 else 0 := by
  by_cases h : v < n
  · rw [if_pos h]
    exact List.count_eq_one_of_mem (List.nodup_range n) (List.mem_range.mpr h)
  · rw [if_neg h]
    exact List.count_eq_zero_of_not_mem (by simpa using h)

theorem countP_eq_mem (b : Nat) :
    ∀ (l : List Nat), l.Nodup →
      l.countP (fun y => decide (y = b)) = if b ∈ l then 1 else 0 := by
  intro l
  induction l with
  | nil => intro _; simp
  | cons x xs ih =>
    intro hnd
    rw [List.nodup_cons] at hnd
    by_cases hx : x = b
    · subst hx
      have h0 : xs.countP (fun y => decide (y = x)) = 0 := by
        rw [ih hnd.2]
        simp [hnd.1]
      simp [List.countP_cons, h0]
    · rw [List.countP_cons]
      simp only [decide_eq_true_eq, hx, if_false, Nat.add_zero]
      rw [ih hnd.2]
      simp [List.mem_cons, Ne.symm hx]

theorem countP_le_one_of_unique {α : Type} (p : α → Bool) :
    ∀ (l : List α), l.Nodup →
      (∀ a ∈ l, ∀ b ∈ l, p a → p b → a = b) → l.countP p ≤ 1 := by
  intro l
  induction l with
  | nil => intro _ _; simp
  | cons x xs ih =>
    intro hnd huniq
    rw [List.nodup_cons] at hnd
    rw [List.countP_cons]
    by_cases hx : p x
    · have h0 : xs.countP p = 0 := by
        rw [List.countP_eq_zero]
        intro a ha hpa
        exact absurd (huniq a (List.mem_cons_of_mem x ha) x (List.mem_cons_self x xs)
          hpa hx ▸ ha) hnd.1
      simp [h0, hx]
    · simp only [hx, if_false, Nat.add_zero]
      exact ih hnd.2 (fun a ha b hb hpa hpb =>
        huniq a (List.mem_cons_of_mem x ha) b (List.mem_cons_of_mem x hb) hpa hpb)

theorem getD_inj {s : List Nat} (hnd : s.Nodup) {i j : Nat}
    (hi : i < s.length) (hj : j < s.length) (h : s.getD i 0 = s.getD j 0) :
    i = j := by
  rw [List.getD_eq_getElem s 0 hi, List.getD_eq_getElem s 0 hj] at h
  exact (hnd.getElem_inj_iff).mp h

theorem getD_mem_of_lt {s : List Nat} {i : Nat} (hi : i < s.length) :
    s.getD i 0 ∈ s := by
  rw [List.getD_eq_getElem s 0 hi]
  exact List.getElem_mem hi

/-! ### Cycle generator: structure of the edge list -/

theorem edges_eq_map_range (s : List Nat) (h : 1 ≤ s.length) :
    Graph2.edges s = (List.range s.length).map
      (fun k => (s.getD k 0, s.getD ((k + 1) % s.length) 0)) := by
  obtain ⟨M, hM⟩ : ∃ M, s.length = M + 1 := ⟨s.length - 1, by omega⟩
  rw [Graph2.edges, hM]
  simp only [Nat.add_sub_cancel]
  rw [List.range_succ, List.map_append]
  congr 1
  · apply List.map_congr_left
    intro k hk
    rw [List.mem_range] at hk
    rw [Nat.mod_eq_of_lt (by omega : k + 1 < M + 1)]
  · simp [Nat.mod_self]

theorem range_succ_mod_perm (N : Nat) (h : 1 ≤ N) :
    ((List.range N).map (fun k => (k + 1) % N)).Perm (List.range N) := by
  obtain ⟨M, hM⟩ : ∃ M, N = M + 1 := ⟨N - 1, by omega⟩
  subst hM
  rw [List.range_succ, List.map_append]
  have h1 : (List.range M).map (fun k => (k + 1) % (M + 1))
      = (List.range M).map Nat.succ := by
    apply List.map_congr_left
    intro k hk
    rw [List.mem_range] at hk
    rw [Nat.mod_eq_of_lt (by omega : k + 1 < M + 1)]
  have h2 : ([M].map (fun k => (k + 1) % (M + 1))) = [0] := by
    simp [Nat.mod_self]
  rw [h1, h2, ← List.range_succ, List.range_succ_eq_map]
  exact List.perm_append_singleton 0 ((List.range M).map Nat.succ)

theorem countP_getD_range (v : Nat) :
    ∀ (s : List Nat),
      (List.range s.length).countP (fun k => decide (s.getD k 0 = v)) = s.count v := by
  intro s
  induction s with
  | nil => simp
  | cons x xs ih =>
    rw [List.length_cons, List.range_succ_eq_map, List.countP_cons, List.countP_map]
    have hc : ((fun k => decide ((x :: xs).getD k 0 = v)) ∘ Nat.succ)
        = fun k => decide (xs.getD k 0 = v) := by
      funext k
      simp [Function.comp, List.getD_cons_succ]
    rw [hc, ih]
    by_cases hxv : x = v
    · subst hxv
      simp [List.count_cons, List.getD_cons_zero]
    · simp [List.count_cons, List.getD_cons_zero, hxv, Ne.symm hxv]

/-- C1: for every `N ≥ 1` and every permutation `s` produced by the
shuffle, the cycle generator's edge list consists of one edge joining each
adjacent pair of the shuffled order (edge `i` joins `s[i]` and `s[i+1]` for
`0 ≤ i < N-1`) followed by one closing edge joining the last and first
elements; equivalently edge `k` joins `s[k]` and `s[(k+1) % N]`, so the
edges form a single closed cycle along `s`, which visits every vertex
exactly once (`s` has no duplicates and enumerates exactly `0..N-1`). -/
theorem cycle_edges_adjacent_pairs (N : Nat) (s : List Nat)
    (hN : 1 ≤ N) (hs : s.Perm (List.range N)) :
    Graph2.edges s =
      ((List.range (N - 1)).map (fun i => (s.getD i 0, s.getD (i + 1) 0)))
        ++ [(s.getD (N - 1) 0, s.getD 0 0)]
    ∧ Graph2.edges s = (List.range N).map
        (fun k => (s.getD k 0, s.getD ((k + 1) % N) 0))
    ∧ s.Nodup ∧ (∀ v, v ∈ s ↔ v < N) := by
  have hlen : s.length = N := by rw [hs.length_eq, List.length_range]
  refine ⟨?_, ?_, ?_, ?_⟩
  · rw [Graph2.edges, hlen]
  · rw [edges_eq_map_range s (by omega), hlen]
  · exact hs.nodup_iff.mpr (List.nodup_range N)
  · intro v
    rw [hs.mem_iff, List.mem_range]

/-- Witness for C1 at `N = 1`, `s = [0]`. -/
theorem cycle_edges_adjacent_pairs_witness :
    1 ≤ 1 ∧ ([0] : List Nat).Perm (List.range 1) ∧
      (∀ v, v ∈ ([0] : List Nat) ↔ v < 1) :=
  ⟨le_refl 1, by decide, (cycle_edges_adjacent_pairs 1 [0] (le_refl 1) (by decide)).2.2.2⟩

/-- C3: for every `N ≥ 1` and every shuffle outcome, the cycle generator
produces exactly `N` vertices and exactly `N` edges, and every vertex
index below `N` occurs as an endpoint exactly twice (its degree, counting
a self-loop twice, is 2). -/
theorem cycle_vertex_edge_counts (N : Nat) (s : List Nat)
    (hN : 1 ≤ N) (hs : s.Perm (List.range N)) :
    (Graph2.vertices N).length = N ∧ (Graph2.edges s).length = N ∧
      ∀ v, v < N → degCount (Graph2.edges s) v = 2 := by
  have hlen : s.length = N := by rw [hs.length_eq, List.length_range]
  refine ⟨by simp [Graph2.vertices], ?_, ?_⟩
  · have h1 : (Graph2.edges s).length = (s.length - 1) + 1 := by
      simp [Graph2.edges]
    omega
  · intro v hv
    have hemap := edges_eq_map_range s (by omega)
    rw [hlen] at hemap
    have hcount : s.count v = 1 := by
      rw [hs.count_eq v, count_range_eq, if_pos hv]
    rw [degCount, hemap, List.countP_map, List.countP_map]
    have hfst : ((fun e : Nat × Nat => decide (e.1 = v))
          ∘ fun k => (s.getD k 0, s.getD ((k + 1) % N) 0))
        = fun k => decide (s.getD k 0 = v) := rfl
    have hsnd : ((fun e : Nat × Nat => decide (e.2 = v))
          ∘ fun k => (s.getD k 0, s.getD ((k + 1) % N) 0))
        = fun k => decide (s.getD ((k + 1) % N) 0 = v) := rfl
    rw [hfst, hsnd]
    have hA : (List.range N).countP (fun k => decide (s.getD k 0 = v)) = 1 := by
      have hr := countP_getD_range v s
      rw [hlen] at hr
      rw [hr, hcount]
    have hB : (List.range N).countP
        (fun k => decide (s.getD ((k + 1) % N) 0 = v)) = 1 := by
      have hmap : (List.range N).countP (fun k => decide (s.getD ((k + 1) % N) 0 = v))
          = ((List.range N).map (fun k => (k + 1) % N)).countP
              (fun j => decide (s.getD j 0 = v)) :=
        (List.countP_map (fun j => decide (s.getD j 0 = v))
          (fun k => (k + 1) % N) (List.range N)).symm
      rw [hmap, List.Perm.countP_eq _ (range_succ_mod_perm N hN)]
      exact hA
    rw [hA, hB]

/-- Witness for C3 at `N = 1`, `s = [0]`. -/
theorem cycle_vertex_edge_counts_witness :
    1 ≤ 1 ∧ ([0] : List Nat).Perm (List.range 1) ∧ (Graph2.edges [0]).length = 1 :=
  ⟨le_refl 1, by decide, (cycle_vertex_edge_counts 1 [0] (le_refl 1) (by decide)).2.1⟩

/-- C6 counterexample: at `N = 2` the shuffle outcome `[0, 1]` (a
permutation of `range 2`) makes the cycle generator emit the unordered
pair `{0, 1}` twice — as `(0, 1)` from the adjacent-pair loop and as
`(1, 0)` from the closing edge — so the construction does produce a
duplicate edge. -/
theorem cycle_edges_dup_at_two :
    ([0, 1] : List Nat).Perm (List.range 2) ∧ ¬ NoDupEdges (Graph2.edges [0, 1]) :=
  ⟨by decide, fun h => absurd (h 0 1) (by decide)⟩

/-- C6 (amended): for every `N ≠ 2` and every shuffle outcome, the cycle
generator's edge list has no duplicate unordered pair of endpoints.  (At
`N = 2` the adjacent-pair edge and the closing edge coincide as unordered
pairs, the single exception.) -/
theorem cycle_edges_no_dup (N : Nat) (s : List Nat)
    (hs : s.Perm (List.range N)) (hN2 : N ≠ 2) :
    NoDupEdges (Graph2.edges s) := by
  have hlen : s.length = N := by rw [hs.length_eq, List.length_range]
  intro a b
  by_cases hN : N ≤ 1
  · have h1 : (Graph2.edges s).length = s.length - 1 + 1 := by
      simp [Graph2.edges]
    calc unorderedCount (Graph2.edges s) a b
        ≤ (Graph2.edges s).length := List.countP_le_length _
      _ = 1 := by omega
  · have hN3 : 3 ≤ N := by omega
    have hnd : s.Nodup := hs.nodup_iff.mpr (List.nodup_range N)
    have hemap := edges_eq_map_range s (by omega)
    rw [hlen] at hemap
    rw [unorderedCount, hemap, List.countP_map]
    apply countP_le_one_of_unique _ _ (List.nodup_range N)
    intro k hk l hl hpk hpl
    rw [List.mem_range] at hk hl
    have hk1 : (k + 1) % N < N := Nat.mod_lt _ (by omega)
    have hl1 : (l + 1) % N < N := Nat.mod_lt _ (by omega)
    have key : ∀ m, m < N → (m + 2) % N = m → False := by
      intro m hm heq
      rcases Nat.lt_or_ge (m + 2) N with h | h
      · rw [Nat.mod_eq_of_lt h] at heq
        omega
      · rw [Nat.mod_eq_sub_mod h, Nat.mod_eq_of_lt (by omega : m + 2 - N < N)] at heq
        omega
    simp only [Function.comp, pairMatch, Bool.or_eq_true, Bool.and_eq_true,
      decide_eq_true_eq] at hpk hpl
    rcases hpk with ⟨hka, hkb⟩ | ⟨hkb, hka⟩ <;> rcases hpl with ⟨hla, hlb⟩ | ⟨hlb, hla⟩
    · exact getD_inj hnd (by omega) (by omega) (hka.trans hla.symm)
    · exfalso
      have e1 : k = (l + 1) % N :=
        getD_inj hnd (by omega) (by omega) (hka.trans hla.symm)
      have e2 : (k + 1) % N = l :=
        getD_inj hnd (by omega) (by omega) (hkb.trans hlb.symm)
      rw [e1, Nat.mod_add_mod] at e2
      exact key l hl e2
    · exfalso
      have e1 : k = (l + 1) % N :=
        getD_inj hnd (by omega) (by omega) (hkb.trans hlb.symm)
      have e2 : (k + 1) % N = l :=
        getD_inj hnd (by omega) (by omega) (hka.trans hla.symm)
      rw [e1, Nat.mod_add_mod] at e2
      exact key l hl e2
    · exact getD_inj hnd (by omega) (by omega) (hkb.trans hlb.symm)

/-- Witness for the amended C6 at `N = 3`, `s = [0, 1, 2]`. -/
theorem cycle_edges_no_dup_witness :
    ([0, 1, 2] : List Nat).Perm (List.range 3) ∧ (3 : Nat) ≠ 2 ∧
      NoDupEdges (Graph2.edges [0, 1, 2]) :=
  ⟨by decide, by decide, cycle_edges_no_dup 3 [0, 1, 2] (by decide) (by decide)⟩

/-- C2 counterexample: for the spec's own concrete example (`N = 4`,
shuffle order `[2, 0, 3, 1]`) the JSON edge list emitted by
`src/graph2.py` is `[[2,0],[0,3],[3,1],[1,2]]` — raw integer indices —
and not the string-identifier list `[["3","1"],["1","4"],["4","2"],
["2","3"]]` the spec describes. -/
theorem cycle_edges_not_strings :
    Graph2.edgesJson [2, 0, 3, 1] ≠ Graph2.edgesSpecStr 4 [2, 0, 3, 1]
      ∧ Graph2.edgesJson [2, 0, 3, 1] =
        [(JVal.jnat 2, JVal.jnat 0), (JVal.jnat 0, JVal.jnat 3),
         (JVal.jnat 3, JVal.jnat 1), (JVal.jnat 1, JVal.jnat 2)]
      ∧ Graph2.edgesSpecStr 4 [2, 0, 3, 1] =
        [(JVal.jstr "3", JVal.jstr "1"), (JVal.jstr "1", JVal.jstr "4"),
         (JVal.jstr "4", JVal.jstr "2"), (JVal.jstr "2", JVal.jstr "3")] := by
  refine ⟨by decide, by decide, ?_⟩
  decide

/-- C2 (amended): for every `N ≥ 1` and every shuffle outcome, each edge
emitted by the cycle generator is a 2-element pair of raw integer vertex
indices in `[0, N)` (zero-based), not of string identifiers. -/
theorem cycle_edges_are_indices (N : Nat) (s : List Nat)
    (hN : 1 ≤ N) (hs : s.Perm (List.range N)) :
    ∀ e ∈ Graph2.edgesJson s,
      ∃ i j : Nat, i < N ∧ j < N ∧ e = (JVal.jnat i, JVal.jnat j) := by
  have hlen : s.length = N := by rw [hs.length_eq, List.length_range]
  intro e he
  rw [Graph2.edgesJson, List.mem_map] at he
  obtain ⟨a, ha, hae⟩ := he
  have hemap := edges_eq_map_range s (by omega)
  rw [hlen] at hemap
  rw [hemap, List.mem_map] at ha
  obtain ⟨k, hk, hka⟩ := ha
  rw [List.mem_range] at hk
  have hk1 : (k + 1) % N < N := Nat.mod_lt _ (by omega)
  have hmem1 : s.getD k 0 ∈ s := getD_mem_of_lt (by omega)
  have hmem2 : s.getD ((k + 1) % N) 0 ∈ s := getD_mem_of_lt (by omega)
  have hb1 : s.getD k 0 < N := List.mem_range.mp (hs.mem_iff.mp hmem1)
  have hb2 : s.getD ((k + 1) % N) 0 < N := List.mem_range.mp (hs.mem_iff.mp hmem2)
  refine ⟨s.getD k 0, s.getD ((k + 1) % N) 0, hb1, hb2, ?_⟩
  rw [← hae, ← hka]

/-- Witness for the amended C2 at `N = 1`, `s = [0]`: the only edge is
`(0, 0)` as integers. -/
theorem cycle_edges_are_indices_witness :
    1 ≤ 1 ∧ ([0] : List Nat).Perm (List.range 1) ∧
      ((JVal.jnat 0, JVal.jnat 0) ∈ Graph2.edgesJson [0]) ∧
      (∃ i j : Nat, i < 1 ∧ j < 1 ∧
        ((JVal.jnat 0, JVal.jnat 0) : JVal × JVal) = (JVal.jnat i, JVal.jnat j)) :=
  ⟨le_refl 1, by decide, by decide,
    cycle_edges_are_indices 1 [0] (le_refl 1) (by decide)
      (JVal.jnat 0, JVal.jnat 0) (by decide)⟩

/-- Modelled from the spec: the in-place swap step of the shuffle.
`random.shuffle` is Python standard-library code, not part of this
repository's sources; the spec describes it as "a uniform random shuffle
(Fisher–Yates or equivalent)". -/
def swapAt (l : List Nat) (i j : Nat) : List Nat :=
  (l.set i (l.getD j 0)).set j (l.getD i 0)

/-- Modelled from the spec: a Fisher–Yates pass over positions
`i, i-1, ..., 1`, draw `r i` choosing the swap partner `r i % (i + 1)`
for position `i` (one integer draw per position, consumed in order). -/
def fisherYates (r : Nat → Nat) : Nat → List Nat → List Nat
  | 0, l => l
  | i + 1, l => fisherYates r i (swapAt l (i + 1) (r (i + 1) % (i + 2)))

/-- Modelled from the spec: `random.shuffle(indices)` applied to the
index range `[0, N)` of `src/graph2.py`. -/
def shuffledIndices (N : Nat) (r : Nat → Nat) : List Nat :=
  fisherYates r (N - 1) (List.range N)

/-- The output document of `src/graph2.py` as a function of the integer
draw stream `r` feeding the shuffle: the `vertices` array and the
`edges` array that `json.dumps` serializes. -/
def Graph2.document (N : Nat) (r : Nat → Nat) : List String × List (JVal × JVal) :=
  (Graph2.vertices N, Graph2.edgesJson (shuffledIndices N r))

/-- The output document of `src/graph_generation.py` as a function of the
draw stream `u`: the `vertices` array and the `edges` array that
`json.dumps` serializes. -/
def GraphGeneration.document (N : Nat) (p1 p2 p3 : ℚ) (u : Nat → ℚ) :
    List String × List (Nat × Nat) :=
  (GraphGeneration.vertices N, GraphGeneration.edges N p1 p2 p3 u)

/-- C8: each generator is a deterministic function of the random source's
state — two runs fed identical sequences of random draws produce
identical output documents (same `vertices` array and same `edges`
array), for both the cycle generator and the community generator. -/
theorem generators_deterministic (N : Nat) (p1 p2 p3 : ℚ)
    (r r' : Nat → Nat) (u u' : Nat → ℚ)
    (hr : ∀ k, r k = r' k) (hu : ∀ k, u k = u' k) :
    Graph2.document N r = Graph2.document N r' ∧
      GraphGeneration.document N p1 p2 p3 u
        = GraphGeneration.document N p1 p2 p3 u' := by
  have hre : r = r' := funext hr
  have hue : u = u' := funext hu
  rw [hre, hue]
  exact ⟨rfl, rfl⟩

/-- Witness for C8 at `N = 2` with constant draw streams. -/
theorem generators_deterministic_witness :
    (∀ k : Nat, (fun _ : Nat => (0 : Nat)) k = (fun _ : Nat => (0 : Nat)) k) ∧
      Graph2.document 2 (fun _ => 0) = Graph2.document 2 (fun _ => 0) ∧
      GraphGeneration.document 2 (1/2) (1/2) (1/2) (fun _ => 0)
        = GraphGeneration.document 2 (1/2) (1/2) (1/2) (fun _ => 0) :=
  ⟨fun _ => rfl,
    (generators_deterministic 2 (1/2) (1/2) (1/2) (fun _ => 0) (fun _ => 0)
      (fun _ => 0) (fun _ => 0) (fun _ => rfl) (fun _ => rfl)).1,
    (generators_deterministic 2 (1/2) (1/2) (1/2) (fun _ => 0) (fun _ => 0)
      (fun _ => 0) (fun _ => 0) (fun _ => rfl) (fun _ => rfl)).2⟩

/-! ### Community generator -/

/-- C4: for every `N ≥ 0`, every draw stream and every vertex index `v`,
the two community lists partition `{0, ..., N-1}`: `v` occurs exactly
once across the two lists when `v < N` and not at all otherwise, so
there is no overlap and no omission. -/
theorem community_partition (N : Nat) (u : Nat → ℚ) (v : Nat) :
    (GraphGeneration.community1 N u).count v
        + (GraphGeneration.community2 N u).count v = (if v < N then 1 else 0)
      ∧ ((v ∈ GraphGeneration.community1 N u ∨ v ∈ GraphGeneration.community2 N u)
          ↔ v < N)
      ∧ ¬(v ∈ GraphGeneration.community1 N u ∧ v ∈ GraphGeneration.community2 N u) := by
  refine ⟨?_, ?_, ?_⟩
  · by_cases hv : u v < 1/2
    · have h1 : (GraphGeneration.community1 N u).count v = (List.range N).count v := by
        rw [GraphGeneration.community1]
        exact List.count_filter (by simpa using hv)
      have h2 : (GraphGeneration.community2 N u).count v = 0 := by
        apply List.count_eq_zero_of_not_mem
        simp only [GraphGeneration.community2, List.mem_filter, List.mem_range,
          Bool.not_eq_eq_eq_not, Bool.not_true, decide_eq_false_iff_not, not_and, not_not]
        exact fun _ => hv
      rw [h1, h2, count_range_eq, Nat.add_zero]
    · have h1 : (GraphGeneration.community1 N u).count v = 0 := by
        apply List.count_eq_zero_of_not_mem
        simp only [GraphGeneration.community1, List.mem_filter, List.mem_range,
          decide_eq_true_eq, not_and]
        exact fun _ => hv
      have h2 : (GraphGeneration.community2 N u).count v = (List.range N).count v := by
        rw [GraphGeneration.community2]
        exact List.count_filter (by simpa using hv)
      rw [h1, h2, count_range_eq, Nat.zero_add]
  · simp only [GraphGeneration.community1, GraphGeneration.community2,
      List.mem_filter, List.mem_range, Bool.not_eq_eq_eq_not, decide_eq_true_eq,
      Bool.not_true, decide_eq_false_iff_not]
    tauto
  · simp only [GraphGeneration.community1, GraphGeneration.community2,
      List.mem_filter, List.mem_range, decide_eq_true_eq]
    intro h
    rcases h with ⟨⟨_, h1⟩, ⟨_, h2⟩⟩
    simp at h2
    exact absurd h1 (by simpa using h2)

/-- `samplePairs` with threshold `0` keeps nothing when every draw is
non-negative (`random.random()` is in `[0, 1)`). -/
theorem samplePairs_zero (u : Nat → ℚ) (hu : ∀ k, 0 ≤ u k) :
    ∀ (es : List (Nat × Nat)) (k : Nat), GraphGeneration.samplePairs 0 u es k = [] := by
  intro es
  induction es with
  | nil => intro k; rfl
  | cons e rest ih =>
    intro k
    rw [GraphGeneration.samplePairs, if_neg (not_lt.mpr (hu k)), ih]

/-- `samplePairs` with threshold `1` keeps everything when every draw is
below `1` (`random.random()` is in `[0, 1)`). -/
theorem samplePairs_one (u : Nat → ℚ) (hu : ∀ k, u k < 1) :
    ∀ (es : List (Nat × Nat)) (k : Nat), GraphGeneration.samplePairs 1 u es k = es := by
  intro es
  induction es with
  | nil => intro k; rfl
  | cons e rest ih =>
    intro k
    rw [GraphGeneration.samplePairs, if_pos (hu k), ih]

/-- The sampled sublist is a sublist of the candidate pair list. -/
theorem samplePairs_sublist (p : ℚ) (u : Nat → ℚ) :
    ∀ (es : List (Nat × Nat)) (k : Nat),
      (GraphGeneration.samplePairs p u es k).Sublist es := by
  intro es
  induction es with
  | nil => intro k; exact List.Sublist.refl []
  | cons e rest ih =>
    intro k
    rw [GraphGeneration.samplePairs]
    by_cases h : u k < p
    · rw [if_pos h]
      exact (ih (k + 1)).cons₂ e
    · rw [if_neg h]
      exact (ih (k + 1)).cons e

/-- C7: for every `N`, every community assignment and every draw stream
with non-negative draws, the community generator with all three edge
probabilities equal to `0` emits an empty edge list. -/
theorem community_edges_empty_at_zero (N : Nat) (u : Nat → ℚ)
    (hu : ∀ k, 0 ≤ u k) :
    GraphGeneration.edges N 0 0 0 u = [] := by
  rw [GraphGeneration.edges]
  simp only [samplePairs_zero u hu]
  rfl

/-- Witness for C7 at `N = 3` with the constant-zero draw stream. -/
theorem community_edges_empty_at_zero_witness :
    (∀ k : Nat, (0 : ℚ) ≤ (fun _ : Nat => (0 : ℚ)) k) ∧
      GraphGeneration.edges 3 0 0 0 (fun _ => 0) = [] :=
  ⟨fun _ => le_refl 0,
    community_edges_empty_at_zero 3 (fun _ => 0) (fun _ => le_refl 0)⟩

/-- Both endpoints of an intra-community candidate pair come from the
community list, and they differ when the list has no duplicates. -/
theorem mem_intraPairs_struct :
    ∀ (l : List Nat), l.Nodup →
      ∀ e ∈ GraphGeneration.intraPairs l, e.1 ∈ l ∧ e.2 ∈ l ∧ e.1 ≠ e.2 := by
  intro l
  induction l with
  | nil =>
    intro _ e he
    simp [GraphGeneration.intraPairs] at he
  | cons x xs ih =>
    intro hnd e he
    rw [List.nodup_cons] at hnd
    rw [GraphGeneration.intraPairs, List.mem_append] at he
    rcases he with he | he
    · rw [List.mem_map] at he
      obtain ⟨y, hy, rfl⟩ := he
      exact ⟨List.mem_cons_self x xs, List.mem_cons_of_mem x hy,
        fun hxy => hnd.1 (by cases hxy; exact hy)⟩
    · obtain ⟨h1, h2, h3⟩ := ih hnd.2 e he
      exact ⟨List.mem_cons_of_mem x h1, List.mem_cons_of_mem x h2, h3⟩

/-- The endpoints of an inter-community candidate pair come from the two
community lists respectively. -/
theorem mem_interPairs_struct (c1 c2 : List Nat) :
    ∀ e ∈ GraphGeneration.interPairs c1 c2, e.1 ∈ c1 ∧ e.2 ∈ c2 := by
  intro e he
  rw [GraphGeneration.interPairs, List.mem_flatMap] at he
  obtain ⟨x, hx, he⟩ := he
  rw [List.mem_map] at he
  obtain ⟨y, hy, rfl⟩ := he
  exact ⟨hx, hy⟩

/-- A list of pairs whose components always differ holds no unordered
pair of the form `{a, a}`. -/
theorem unorderedCount_self_zero (es : List (Nat × Nat))
    (h : ∀ e ∈ es, e.1 ≠ e.2) (a : Nat) : unorderedCount es a a = 0 := by
  rw [unorderedCount, List.countP_eq_zero]
  intro e he
  simp only [pairMatch, Bool.or_eq_true, Bool.and_eq_true, decide_eq_true_eq]
  rintro (⟨h1, h2⟩ | ⟨h1, h2⟩) <;> exact h e he (h1.trans h2.symm)

/-- The unordered pair `{a, b}` (with `a ≠ b`) occurs in the
intra-community candidate list of a duplicate-free community exactly once
when both endpoints are members, otherwise not at all. -/
theorem unorderedCount_intraPairs (a b : Nat) (hab : a ≠ b) :
    ∀ (l : List Nat), l.Nodup →
      unorderedCount (GraphGeneration.intraPairs l) a b
        = if a ∈ l ∧ b ∈ l then 1 else 0 := by
  intro l
  induction l with
  | nil =>
    intro _
    simp [GraphGeneration.intraPairs, unorderedCount]
  | cons x xs ih =>
    intro hnd
    rw [List.nodup_cons] at hnd
    rw [GraphGeneration.intraPairs, unorderedCount, List.countP_append]
    have hmap : (xs.map (fun y => (x, y))).countP (pairMatch a b)
        = xs.countP (fun y => pairMatch a b (x, y)) := List.countP_map _ _ _
    have hihr : (GraphGeneration.intraPairs xs).countP (pairMatch a b)
        = if a ∈ xs ∧ b ∈ xs then 1 else 0 := ih hnd.2
    rw [hmap, hihr]
    by_cases hxa : x = a
    · have hpred : (fun y => pairMatch a b (x, y)) = fun y => decide (y = b) := by
        funext y
        simp [pairMatch, hxa, hab]
      rw [hpred, countP_eq_mem b xs hnd.2]
      have hax : a ∉ xs := hxa ▸ hnd.1
      have hamem : a ∈ x :: xs := hxa ▸ List.mem_cons_self x xs
      have hbmem : (b ∈ x :: xs) ↔ (b ∈ xs) := by
        rw [List.mem_cons]
        have hbx : ¬ b = x := fun h => hab (hxa.symm.trans h.symm)
        tauto
      split_ifs with h1 h2 h3 <;> first | rfl | (exfalso; tauto)
    · by_cases hxb : x = b
      · have hpred : (fun y => pairMatch a b (x, y)) = fun y => decide (y = a) := by
          funext y
          simp only [pairMatch, hxb]
          have hba : ¬ b = a := fun h => hxa (hxb.trans h)
          simp [hba]
        rw [hpred, countP_eq_mem a xs hnd.2]
        have hbx : b ∉ xs := hxb ▸ hnd.1
        have hbmem : b ∈ x :: xs := hxb ▸ List.mem_cons_self x xs
        have hamem : (a ∈ x :: xs) ↔ (a ∈ xs) := by
          rw [List.mem_cons]
          have hax : ¬ a = x := fun h => hxa h.symm
          tauto
        split_ifs with h1 h2 h3 <;> first | rfl | (exfalso; tauto)
      · have hpred : (fun y => pairMatch a b (x, y)) = fun _ => false := by
          funext y
          simp [pairMatch, hxa, hxb]
        rw [hpred]
        have hz : xs.countP (fun _ => false) = 0 := by
          rw [List.countP_eq_zero]
          intro z hz hfalse
          exact absurd hfalse (by simp)
        rw [hz]
        have hamem : (a ∈ x :: xs) ↔ (a ∈ xs) := by
          rw [List.mem_cons]
          have : ¬ a = x := fun h => hxa h.symm
          tauto
        have hbmem : (b ∈ x :: xs) ↔ (b ∈ xs) := by
          rw [List.mem_cons]
          have : ¬ b = x := fun h => hxb h.symm
          tauto
        split_ifs with h1 h2 <;> first | rfl | (exfalso; tauto)

/-- Occurrences of the unordered pair `{a, b}` (with `a ≠ b`) in the
inter-community candidate list, expressed through occurrence counts of
`a` and `b` in the two community lists. -/
theorem unorderedCount_interPairs (a b : Nat) (hab : a ≠ b) (c2 : List Nat) :
    ∀ c1 : List Nat,
      unorderedCount (GraphGeneration.interPairs c1 c2) a b
        = c1.countP (fun y => decide (y = a)) * c2.countP (fun y => decide (y = b))
          + c1.countP (fun y => decide (y = b)) * c2.countP (fun y => decide (y = a)) := by
  intro c1
  induction c1 with
  | nil => simp [GraphGeneration.interPairs, unorderedCount]
  | cons x xs ih =>
    rw [GraphGeneration.interPairs, List.flatMap_cons, unorderedCount,
      List.countP_append]
    have hmap : (c2.map (fun y => (x, y))).countP (pairMatch a b)
        = c2.countP (fun y => pairMatch a b (x, y)) := List.countP_map _ _ _
    rw [hmap]
    have hihr : (xs.flatMap (fun x => c2.map (fun y => (x, y)))).countP (pairMatch a b)
        = xs.countP (fun y => decide (y = a)) * c2.countP (fun y => decide (y = b))
          + xs.countP (fun y => decide (y = b)) * c2.countP (fun y => decide (y = a)) := by
      rw [← GraphGeneration.interPairs, ← unorderedCount]
      exact ih
    rw [hihr, List.countP_cons, List.countP_cons]
    by_cases hxa : x = a
    · have hxb : ¬ x = b := fun h => hab (hxa.symm.trans h)
      have hpred : (fun y => pairMatch a b (x, y)) = fun y => decide (y = b) := by
        funext y
        simp [pairMatch, hxa, hab]
      rw [hpred]
      simp only [hxa, hxb, decide_eq_true_eq, if_pos, if_neg, ite_true, ite_false]
      rw [if_neg hab]
      ring
    · by_cases hxb : x = b
      · have hpred : (fun y => pairMatch a b (x, y)) = fun y => decide (y = a) := by
          funext y
          simp only [pairMatch, hxb]
          have hba : ¬ b = a := fun h => hxa (hxb.trans h)
          simp [hba]
        rw [hpred]
        simp only [hxa, hxb, decide_eq_true_eq, ite_true, ite_false, if_neg, if_pos]
        rw [if_neg (fun h => hab h.symm)]
        ring
      · have hpred : (fun y => pairMatch a b (x, y)) = fun _ => false := by
          funext y
          simp [pairMatch, hxa, hxb]
        rw [hpred]
        have hz : c2.countP (fun _ => false) = 0 := by
          rw [List.countP_eq_zero]
          intro z hz hf
          exact absurd hf (by simp)
        rw [hz]
        simp only [hxa, hxb, decide_eq_true_eq, ite_false, if_neg]
        ring

/-- `community1` never repeats an index (it filters the duplicate-free
`range`). -/
theorem community1_nodup (N : Nat) (u : Nat → ℚ) :
    (GraphGeneration.community1 N u).Nodup :=
  List.Nodup.filter _ (List.nodup_range N)

/-- `community2` never repeats an index. -/
theorem community2_nodup (N : Nat) (u : Nat → ℚ) :
    (GraphGeneration.community2 N u).Nodup :=
  List.Nodup.filter _ (List.nodup_range N)

/-- Membership in `community1`. -/
theorem mem_community1 (N : Nat) (u : Nat → ℚ) (v : Nat) :
    v ∈ GraphGeneration.community1 N u ↔ v < N ∧ u v < 1/2 := by
  simp [GraphGeneration.community1, List.mem_filter, List.mem_range]

/-- Membership in `community2`. -/
theorem mem_community2 (N : Nat) (u : Nat → ℚ) (v : Nat) :
    v ∈ GraphGeneration.community2 N u ↔ v < N ∧ ¬(u v < 1/2) := by
  simp [GraphGeneration.community2, List.mem_filter, List.mem_range]

/-- The two complementary filters of a list split its length. -/
theorem length_filter_compl (p : Nat → Bool) :
    ∀ l : List Nat,
      (l.filter p).length + (l.filter (fun v => !p v)).length = l.length := by
  intro l
  induction l with
  | nil => rfl
  | cons x xs ih =>
    by_cases hx : p x
    · simp [List.filter_cons, hx]
      omega
    · have hx' : p x = false := by simpa using hx
      simp [List.filter_cons, hx']
      omega

/-- The number of intra-community candidate pairs of a community of size
`n` is `n * (n - 1) / 2`. -/
theorem intraPairs_length :
    ∀ l : List Nat,
      (GraphGeneration.intraPairs l).length = l.length * (l.length - 1) / 2 := by
  intro l
  induction l with
  | nil => rfl
  | cons x xs ih =>
    rw [GraphGeneration.intraPairs, List.length_append, List.length_map, ih,
      List.length_cons]
    obtain ⟨n, hn⟩ : ∃ n, xs.length = n := ⟨_, rfl⟩
    rw [hn]
    rcases n with _ | m
    · norm_num
    · have h1 : m + 1 + 1 - 1 = m + 1 := by omega
      have h2 : m + 1 - 1 = m := by omega
      rw [h1, h2]
      have h3 : (m + 1 + 1) * (m + 1) = (m + 1) * m + 2 * (m + 1) := by ring
      rw [h3, Nat.add_mul_div_left _ _ (by norm_num : 0 < 2)]
      exact Nat.add_comm _ _

/-- The number of inter-community candidate pairs is the product of the
community sizes. -/
theorem interPairs_length (c2 : List Nat) :
    ∀ c1 : List Nat,
      (GraphGeneration.interPairs c1 c2).length = c1.length * c2.length := by
  intro c1
  induction c1 with
  | nil => simp [GraphGeneration.interPairs]
  | cons x xs ih =>
    rw [GraphGeneration.interPairs, List.flatMap_cons, List.length_append,
      List.length_map, ← GraphGeneration.interPairs, ih, List.length_cons]
    ring

/-- Splitting `n` vertices into parts of sizes `n1` and `n2` splits the
`n * (n - 1) / 2` unordered pairs into the two intra-part counts plus
the `n1 * n2` cross pairs. -/
theorem half_sum (n1 n2 : Nat) :
    n1 * (n1 - 1) / 2 + n2 * (n2 - 1) / 2 + n1 * n2
      = (n1 + n2) * ((n1 + n2) - 1) / 2 := by
  have hc : (n1 + n2) * ((n1 + n2) - 1)
      = n1 * (n1 - 1) + n2 * (n2 - 1) + 2 * (n1 * n2) := by
    rcases n1 with _ | m
    · simp
    · rcases n2 with _ | k
      · simp
      · have h1 : m + 1 + (k + 1) - 1 = m + k + 1 := by omega
        have h2 : m + 1 - 1 = m := by omega
        have h3 : k + 1 - 1 = k := by omega
        rw [h1, h2, h3]
        ring
  have ha : n1 * (n1 - 1) % 2 = 0 := by
    rcases n1 with _ | m
    · simp
    · have h2 : m + 1 - 1 = m := by omega
      rw [h2, Nat.mul_comm]
      rcases Nat.even_mul_succ_self m with ⟨r, hr⟩
      rw [hr]
      omega
  have hb : n2 * (n2 - 1) % 2 = 0 := by
    rcases n2 with _ | k
    · simp
    · have h2 : k + 1 - 1 = k := by omega
      rw [h2, Nat.mul_comm]
      rcases Nat.even_mul_succ_self k with ⟨r, hr⟩
      rw [hr]
      omega
  set A := n1 * (n1 - 1) with hA
  set B := n2 * (n2 - 1) with hB
  set C := (n1 + n2) * ((n1 + n2) - 1) with hC
  set W := n1 * n2 with hW
  omega

/-- C9 (implicit): for every `N`, every community assignment and every
draw stream, each edge emitted by the community generator joins two
distinct vertex indices, both in `[0, N)` — no self-loops, no
out-of-range endpoints. -/
theorem community_edges_endpoints (N : Nat) (p1 p2 p3 : ℚ) (u : Nat → ℚ) :
    ∀ e ∈ GraphGeneration.edges N p1 p2 p3 u, e.1 < N ∧ e.2 < N ∧ e.1 ≠ e.2 := by
  intro e he
  simp only [GraphGeneration.edges, List.mem_append] at he
  rcases he with (he | he) | he
  · have hsub := (samplePairs_sublist p1 u
      (GraphGeneration.intraPairs (GraphGeneration.community1 N u)) N).subset he
    obtain ⟨h1, h2, h3⟩ :=
      mem_intraPairs_struct _ (community1_nodup N u) e hsub
    exact ⟨((mem_community1 N u e.1).mp h1).1, ((mem_community1 N u e.2).mp h2).1, h3⟩
  · have hsub := (samplePairs_sublist p2 u
      (GraphGeneration.intraPairs (GraphGeneration.community2 N u)) _).subset he
    obtain ⟨h1, h2, h3⟩ :=
      mem_intraPairs_struct _ (community2_nodup N u) e hsub
    exact ⟨((mem_community2 N u e.1).mp h1).1, ((mem_community2 N u e.2).mp h2).1, h3⟩
  · have hsub := (samplePairs_sublist p3 u
      (GraphGeneration.interPairs (GraphGeneration.community1 N u)
        (GraphGeneration.community2 N u)) _).subset he
    obtain ⟨h1, h2⟩ := mem_interPairs_struct _ _ e hsub
    have hm1 := (mem_community1 N u e.1).mp h1
    have hm2 := (mem_community2 N u e.2).mp h2
    refine ⟨hm1.1, hm2.1, fun hq => ?_⟩
    rw [hq] at hm1
    exact hm2.2 hm1.2

/-- Witness for C9 at `N = 2`, all probabilities `1`, constant-zero
draws: the single emitted edge is `(0, 1)`. -/
theorem community_edges_endpoints_witness :
    ((0, 1) ∈ GraphGeneration.edges 2 1 1 1 (fun _ => 0)) ∧
      ((0, 1) : Nat × Nat).1 < 2 ∧ ((0, 1) : Nat × Nat).2 < 2 ∧
        ((0, 1) : Nat × Nat).1 ≠ ((0, 1) : Nat × Nat).2 := by
  have hmem : (0, 1) ∈ GraphGeneration.edges 2 1 1 1 (fun _ => 0) := by
    have h05 : ((0 : ℚ) < 1/2) := by norm_num
    have h01 : ((0 : ℚ) < 1) := by norm_num
    simp [GraphGeneration.edges, GraphGeneration.community1,
      GraphGeneration.community2, GraphGeneration.intraPairs,
      GraphGeneration.interPairs, GraphGeneration.samplePairs,
      List.range_succ, h05, h01]
  exact ⟨hmem, community_edges_endpoints 2 1 1 1 (fun _ => 0) (0, 1) hmem⟩

/-- C10 (implicit): for every `N`, every community assignment and every
draw stream, the community generator emits each unordered pair of vertex
indices at most once — the two community lists are disjoint and each
intra- and inter-community candidate pair is considered exactly once. -/
theorem community_edges_no_dup (N : Nat) (p1 p2 p3 : ℚ) (u : Nat → ℚ) :
    NoDupEdges (GraphGeneration.edges N p1 p2 p3 u) := by
  intro a b
  set c1 := GraphGeneration.community1 N u with hc1
  set c2 := GraphGeneration.community2 N u with hc2
  have hedef : GraphGeneration.edges N p1 p2 p3 u
      = GraphGeneration.samplePairs p1 u (GraphGeneration.intraPairs c1) N
        ++ GraphGeneration.samplePairs p2 u (GraphGeneration.intraPairs c2)
            (N + (GraphGeneration.intraPairs c1).length)
        ++ GraphGeneration.samplePairs p3 u (GraphGeneration.interPairs c1 c2)
            (N + (GraphGeneration.intraPairs c1).length
              + (GraphGeneration.intraPairs c2).length) := rfl
  have hbound : unorderedCount (GraphGeneration.edges N p1 p2 p3 u) a b
      ≤ unorderedCount (GraphGeneration.intraPairs c1) a b
        + unorderedCount (GraphGeneration.intraPairs c2) a b
        + unorderedCount (GraphGeneration.interPairs c1 c2) a b := by
    rw [hedef, unorderedCount, List.countP_append, List.countP_append]
    have b1 := List.Sublist.countP_le (pairMatch a b)
      (samplePairs_sublist p1 u (GraphGeneration.intraPairs c1) N)
    have b2 := List.Sublist.countP_le (pairMatch a b)
      (samplePairs_sublist p2 u (GraphGeneration.intraPairs c2)
        (N + (GraphGeneration.intraPairs c1).length))
    have b3 := List.Sublist.countP_le (pairMatch a b)
      (samplePairs_sublist p3 u (GraphGeneration.interPairs c1 c2)
        (N + (GraphGeneration.intraPairs c1).length
          + (GraphGeneration.intraPairs c2).length))
    rw [unorderedCount, unorderedCount, unorderedCount]
    omega
  by_cases hab : a = b
  · subst hab
    have z1 : unorderedCount (GraphGeneration.intraPairs c1) a a = 0 :=
      unorderedCount_self_zero _
        (fun e he => (mem_intraPairs_struct c1 (community1_nodup N u) e he).2.2) a
    have z2 : unorderedCount (GraphGeneration.intraPairs c2) a a = 0 :=
      unorderedCount_self_zero _
        (fun e he => (mem_intraPairs_struct c2 (community2_nodup N u) e he).2.2) a
    have z3 : unorderedCount (GraphGeneration.interPairs c1 c2) a a = 0 := by
      apply unorderedCount_self_zero
      intro e he
      obtain ⟨h1, h2⟩ := mem_interPairs_struct c1 c2 e he
      intro heq
      have hu1 := ((mem_community1 N u e.1).mp h1).2
      have hu2 := ((mem_community2 N u e.2).mp h2).2
      rw [heq] at hu1
      exact hu2 hu1
    omega
  · have h1 : unorderedCount (GraphGeneration.intraPairs c1) a b
        = if a ∈ c1 ∧ b ∈ c1 then 1 else 0 :=
      unorderedCount_intraPairs a b hab c1 (community1_nodup N u)
    have h2 : unorderedCount (GraphGeneration.intraPairs c2) a b
        = if a ∈ c2 ∧ b ∈ c2 then 1 else 0 :=
      unorderedCount_intraPairs a b hab c2 (community2_nodup N u)
    have h3 : unorderedCount (GraphGeneration.interPairs c1 c2) a b
        = (if a ∈ c1 ∧ b ∈ c2 then 1 else 0)
          + (if b ∈ c1 ∧ a ∈ c2 then 1 else 0) := by
      rw [unorderedCount_interPairs a b hab c2 c1,
        countP_eq_mem a c1 (community1_nodup N u),
        countP_eq_mem b c2 (community2_nodup N u),
        countP_eq_mem b c1 (community1_nodup N u),
        countP_eq_mem a c2 (community2_nodup N u)]
      by_cases q1 : a ∈ c1 <;> by_cases q2 : b ∈ c2 <;>
        by_cases q3 : b ∈ c1 <;> by_cases q4 : a ∈ c2 <;>
          simp [q1, q2, q3, q4]
    have hex1 : ¬(a ∈ c1 ∧ a ∈ c2) := by
      rw [hc1, hc2, mem_community1, mem_community2]
      tauto
    have hex2 : ¬(b ∈ c1 ∧ b ∈ c2) := by
      rw [hc1, hc2, mem_community1, mem_community2]
      tauto
    rw [h1, h2, h3] at hbound
    split_ifs at hbound <;> first | omega | (exfalso; tauto)

/-- C5: for every `N ≥ 2`, every community assignment and every draw
stream in `[0, 1)`, the community generator with `p1 = p2 = p3 = 1`
emits every unordered pair of distinct vertex indices exactly once — a
complete graph with `N * (N - 1) / 2` edges. -/
theorem community_complete_graph (N : Nat) (u : Nat → ℚ)
    (hN : 2 ≤ N) (hu : ∀ k, 0 ≤ u k ∧ u k < 1) :
    (∀ a b, a < b → b < N →
        unorderedCount (GraphGeneration.edges N 1 1 1 u) a b = 1)
      ∧ (GraphGeneration.edges N 1 1 1 u).length = N * (N - 1) / 2 := by
  have hu1 : ∀ k, u k < 1 := fun k => (hu k).2
  set c1 := GraphGeneration.community1 N u with hc1
  set c2 := GraphGeneration.community2 N u with hc2
  have hedef : GraphGeneration.edges N 1 1 1 u
      = GraphGeneration.intraPairs c1 ++ GraphGeneration.intraPairs c2
        ++ GraphGeneration.interPairs c1 c2 := by
    have h0 : GraphGeneration.edges N 1 1 1 u
        = GraphGeneration.samplePairs 1 u (GraphGeneration.intraPairs c1) N
          ++ GraphGeneration.samplePairs 1 u (GraphGeneration.intraPairs c2)
              (N + (GraphGeneration.intraPairs c1).length)
          ++ GraphGeneration.samplePairs 1 u (GraphGeneration.interPairs c1 c2)
              (N + (GraphGeneration.intraPairs c1).length
                + (GraphGeneration.intraPairs c2).length) := rfl
    rw [h0, samplePairs_one u hu1, samplePairs_one u hu1, samplePairs_one u hu1]
  constructor
  · intro a b hab hbN
    have haN : a < N := lt_trans hab hbN
    have hane : a ≠ b := Nat.ne_of_lt hab
    rw [hedef, unorderedCount, List.countP_append, List.countP_append]
    have t1 : (GraphGeneration.intraPairs c1).countP (pairMatch a b)
        = if a ∈ c1 ∧ b ∈ c1 then 1 else 0 :=
      unorderedCount_intraPairs a b hane c1 (community1_nodup N u)
    have t2 : (GraphGeneration.intraPairs c2).countP (pairMatch a b)
        = if a ∈ c2 ∧ b ∈ c2 then 1 else 0 :=
      unorderedCount_intraPairs a b hane c2 (community2_nodup N u)
    have t3 : (GraphGeneration.interPairs c1 c2).countP (pairMatch a b)
        = (if a ∈ c1 then 1 else 0) * (if b ∈ c2 then 1 else 0)
          + (if b ∈ c1 then 1 else 0) * (if a ∈ c2 then 1 else 0) := by
      rw [show (GraphGeneration.interPairs c1 c2).countP (pairMatch a b)
            = unorderedCount (GraphGeneration.interPairs c1 c2) a b from rfl,
        unorderedCount_interPairs a b hane c2 c1,
        countP_eq_mem a c1 (community1_nodup N u),
        countP_eq_mem b c2 (community2_nodup N u),
        countP_eq_mem b c1 (community1_nodup N u),
        countP_eq_mem a c2 (community2_nodup N u)]
    rw [t1, t2, t3]
    by_cases hua : u a < 2⁻¹ <;> by_cases hub : u b < 2⁻¹
    · simp [hc1, hc2, mem_community1, mem_community2, haN, hbN, hua, hub,
        not_le.mpr hua, not_le.mpr hub]
    · simp [hc1, hc2, mem_community1, mem_community2, haN, hbN, hua, hub,
        not_le.mpr hua, not_lt.mp hub]
    · simp [hc1, hc2, mem_community1, mem_community2, haN, hbN, hua, hub,
        not_lt.mp hua, not_le.mpr hub]
    · simp [hc1, hc2, mem_community1, mem_community2, haN, hbN, hua, hub,
        not_lt.mp hua, not_lt.mp hub]
  · rw [hedef, List.length_append, List.length_append, intraPairs_length,
      intraPairs_length, interPairs_length]
    have hsum : c1.length + c2.length = N := by
      have hl := length_filter_compl (fun v => decide (u v < 1/2)) (List.range N)
      rw [List.length_range] at hl
      exact hl
    rw [← hsum]
    exact half_sum c1.length c2.length

/-- Witness for C5 at `N = 2` with the constant-zero draw stream: the
edge list is a single edge, `2 * (2 - 1) / 2 = 1`. -/
theorem community_complete_graph_witness :
    2 ≤ 2 ∧ (∀ k : Nat, (0 : ℚ) ≤ (fun _ : Nat => (0 : ℚ)) k
        ∧ (fun _ : Nat => (0 : ℚ)) k < 1) ∧
      (GraphGeneration.edges 2 1 1 1 (fun _ => 0)).length = 2 * (2 - 1) / 2 :=
  ⟨le_refl 2, fun _ => ⟨le_refl 0, by norm_num⟩,
    (community_complete_graph 2 (fun _ => 0) (le_refl 2)
      (fun _ => ⟨le_refl 0, by norm_num⟩)).2⟩
